import Mathlib

/-
  Verification of the CAMPAREE coordinate-remapping engine
  (camparee/update_annotation_for_genome.py).

  The definitions below are a shallow embedding of the Python source:
  - bisect_right mirrors bisect.bisect_right on a sorted list (index of the
    first element greater than the query, i.e. the number of elements that
    are less than or equal to the query);
  - pyGet mirrors Python list indexing, including negative indices that
    wrap around to the end of the list;
  - remapFeature mirrors the coordinate-update branches of execute()
    (lines 147-213), including the unguarded negative index in the final
    branch;
  - buildStep / get_offsets_from_variant_file mirror
    _get_offsets_from_variant_file (lines 357-389);
  - annotStep / runAnnotLoop mirror the streaming loop of execute()
    (lines 102-239), including the double assignment of the coordinate
    list on lines 140-141 that leaves the offset list stale for a
    chromosome without indels;
  - is_output_valid mirrors is_output_valid (lines 419-436).
-/

namespace CampareeAnnot

/-- Index at which bisect.bisect_right would insert x into l: for a sorted
list this is the length of the prefix of elements that are at most x. -/
def bisect_right (l : List Int) (x : Int) : Nat :=
  (l.takeWhile (fun v => decide (v ≤ x))).length

/-- Python list indexing: a negative index counts from the end of the list
(index -1 is the final element). Out-of-range reads default to 0; in the
embedded code every index lies between -1 and the length minus one. -/
def pyGet (l : List Int) (i : Int) : Int :=
  if 0 ≤ i then l.getD i.toNat 0 else l.getD (l.length - (-i).toNat) 0

/-- The four coordinate fields of one annotation feature that the remapper
updates: txStart, txEnd and the exon start and end lists. -/
structure CoordFeature where
  txStart : Int
  txEnd : Int
  exonStarts : List Int
  exonEnds : List Int
deriving DecidableEq, Repr

/-- Coordinate update of one feature, mirroring lines 149-213 of execute():
the offset index of txStart and txEnd is bisect_right minus one; the first
branch handles no indel before txStart (exon lookups guarded by an
explicit index check), the second branch applies a single shared offset
when both indices agree, and the final branch looks up every exon
coordinate independently, indexing the offset list without a lower-bound
guard (a Python index of -1 silently reads the final offset). -/
def remapFeature (coords offsets : List Int) (f : CoordFeature) : CoordFeature :=
  if (bisect_right coords f.txStart : Int) - 1 = -1 then
    if (bisect_right coords f.txEnd : Int) - 1 = -1 then
      ⟨f.txStart, f.txEnd, f.exonStarts, f.exonEnds⟩
    else
      ⟨f.txStart,
       f.txEnd + pyGet offsets ((bisect_right coords f.txEnd : Int) - 1),
       f.exonStarts.map (fun c =>
         if 0 ≤ (bisect_right coords c : Int) - 1 then
           c + pyGet offsets ((bisect_right coords c : Int) - 1) else c),
       f.exonEnds.map (fun c =>
         if 0 ≤ (bisect_right coords c : Int) - 1 then
           c + pyGet offsets ((bisect_right coords c : Int) - 1) else c)⟩
  else if (bisect_right coords f.txStart : Int) - 1
      = (bisect_right coords f.txEnd : Int) - 1 then
    ⟨f.txStart + pyGet offsets ((bisect_right coords f.txStart : Int) - 1),
     f.txEnd + pyGet offsets ((bisect_right coords f.txStart : Int) - 1),
     f.exonStarts.map (fun c => c + pyGet offsets ((bisect_right coords f.txStart : Int) - 1)),
     f.exonEnds.map (fun c => c + pyGet offsets ((bisect_right coords f.txStart : Int) - 1))⟩
  else
    ⟨f.txStart + pyGet offsets ((bisect_right coords f.txStart : Int) - 1),
     f.txEnd + pyGet offsets ((bisect_right coords f.txEnd : Int) - 1),
     f.exonStarts.map (fun c => c + pyGet offsets ((bisect_right coords c : Int) - 1)),
     f.exonEnds.map (fun c => c + pyGet offsets ((bisect_right coords c : Int) - 1))⟩

/-- Modelled from the spec: effective_offset(c) is the cumulative offset at
the greatest indel position at most c, and 0 when no indel position is at
most c (section 4.4 of the specification). -/
def effectiveOffset (coords offsets : List Int) (c : Int) : Int :=
  if bisect_right coords c = 0 then 0
  else offsets.getD (bisect_right coords c - 1) 0

/-- Modelled from the spec: the per-coordinate remapping strategy that
predecessor-searches every coordinate independently and applies
updated_c = c + effective_offset(c). -/
def remapPerExon (coords offsets : List Int) (f : CoordFeature) : CoordFeature :=
  ⟨f.txStart + effectiveOffset coords offsets f.txStart,
   f.txEnd + effectiveOffset coords offsets f.txEnd,
   f.exonStarts.map (fun c => c + effectiveOffset coords offsets c),
   f.exonEnds.map (fun c => c + effectiveOffset coords offsets c)⟩

/-- The fast path of lines 193-198: one shared offset, taken at the
predecessor index of txStart, added to every coordinate of the feature. -/
def remapWholeFeature (coords offsets : List Int) (f : CoordFeature) : CoordFeature :=
  ⟨f.txStart + pyGet offsets ((bisect_right coords f.txStart : Int) - 1),
   f.txEnd + pyGet offsets ((bisect_right coords f.txStart : Int) - 1),
   f.exonStarts.map (fun c => c + pyGet offsets ((bisect_right coords f.txStart : Int) - 1)),
   f.exonEnds.map (fun c => c + pyGet offsets ((bisect_right coords f.txStart : Int) - 1))⟩

/-- One parsed record of the indel file: chromosome, zero-based position,
kind (the raw second column, compared against the string D by the code)
and length. -/
structure IndelRecord where
  chrom : String
  pos : Int
  kind : String
  length : Int
deriving DecidableEq, Repr

/-- Signed contribution of one indel record: negative for a deletion,
positive otherwise (lines 381-386). -/
def signedLen (r : IndelRecord) : Int :=
  if r.kind = "D" then -r.length else r.length

/-- Update of one ordered-dictionary entry: replace the value of an
existing key in place, otherwise append the pair at the end. -/
def odSet (l : List (Int × Int)) (k v : Int) : List (Int × Int) :=
  match l with
  | [] => [(k, v)]
  | (k', v') :: rest => if k' = k then (k, v) :: rest else (k', v') :: odSet rest k v

/-- Update of the outer defaultdict of ordered dictionaries: set position k
of chromosome c to v, creating the chromosome entry on first use. -/
def tblSet (t : List (String × List (Int × Int))) (c : String) (k v : Int) :
    List (String × List (Int × Int)) :=
  match t with
  | [] => [(c, [(k, v)])]
  | (c', l) :: rest =>
    if c' = c then (c, odSet l k v) :: rest else (c', l) :: tblSet rest c k v

/-- Python dict lookup on an association list with string keys. -/
def alookup {α : Type} (c : String) : List (String × α) → Option α
  | [] => none
  | (c', v) :: rest => if c' = c then some v else alookup c rest

/-- Lookup of the ordered offset table of a chromosome, defaulting to the
empty table for an absent chromosome. -/
def lookupD (c : String) (t : List (String × List (Int × Int))) : List (Int × Int) :=
  (alookup c t).getD []

/-- State of _get_offsets_from_variant_file while streaming the indel file:
the table built so far, the rolling offset and the current chromosome. -/
structure BuildState where
  table : List (String × List (Int × Int))
  rolling : Int
  currChrom : String
deriving DecidableEq, Repr

/-- One iteration of the loop of _get_offsets_from_variant_file (lines
369-387): reset the rolling offset when the chromosome changes, negate the
length of a deletion, add to the rolling offset and record the pair. -/
def buildStep (st : BuildState) (r : IndelRecord) : BuildState :=
  let rolling0 := if st.currChrom = r.chrom then st.rolling else 0
  let rolling := rolling0 + signedLen r
  ⟨tblSet st.table r.chrom r.pos rolling, rolling, r.chrom⟩

/-- _get_offsets_from_variant_file: fold the indel records into the nested
offset table, starting from the empty table, rolling offset 0 and the
empty current chromosome. -/
def get_offsets_from_variant_file (rs : List IndelRecord) :
    List (String × List (Int × Int)) :=
  (rs.foldl buildStep ⟨[], 0, ""⟩).table

/-- Reference description of one chromosome block: the running signed sum
of indel lengths after each record, paired with the record position. -/
def runningOffsets (acc : Int) : List IndelRecord → List (Int × Int)
  | [] => []
  | r :: rs => (r.pos, acc + signedLen r) :: runningOffsets (acc + signedLen r) rs

/-- Concatenation of the per-chromosome blocks of an indel file. -/
def flattenBlocks : List (String × List IndelRecord) → List IndelRecord
  | [] => []
  | b :: rest => b.2 ++ flattenBlocks rest

/-- Ploidy tuple access by gender index, mirroring ploidies[gender_index]
on a (male, female) pair with index 0 for male and 1 for female. -/
def ploidyAt (p : Int × Int) (i : Nat) : Int :=
  if i = 1 then p.2 else p.1

/-- Lines 83-86 of execute(): the gender index is 1 for a female sample and
0 otherwise, and a chromosome is desired when its ploidy value at that
index is at least the genome copy number. -/
def desired_chromosomes (chr_ploidy : List (String × Int × Int))
    (gender : String) (genome_copy : Int) : List String :=
  (chr_ploidy.filter
      (fun e => decide (ploidyAt e.2 (if gender = "female" then 1 else 0) ≥ genome_copy))).map
    Prod.fst

/-- The eleven tab-separated columns of one line of the annotation file,
as the strings obtained by splitting the line (line 114). -/
structure AnnotFields where
  chrom : String
  strand : String
  txStart : String
  txEnd : String
  exonCount : String
  exonStarts : String
  exonEnds : String
  transcriptID : String
  geneID : String
  geneSymbol : String
  biotype : String
deriving DecidableEq, Repr

/-- Python int() on a well-formed decimal column. -/
def parseInt (s : String) : Int :=
  (String.toInt? s).getD 0

/-- Parse a comma-joined coordinate column (lines 152-153). -/
def parseIntList (s : String) : List Int :=
  (s.splitOn (",")).map parseInt

/-- Lines 149-230 of execute() for a chromosome with variants: parse the
coordinate columns, remap them and rebuild the line, passing every
non-coordinate column through verbatim. -/
def remapFields (coords offsets : List Int) (f : AnnotFields) : AnnotFields :=
  let r := remapFeature coords offsets
    ⟨parseInt f.txStart, parseInt f.txEnd,
     parseIntList f.exonStarts, parseIntList f.exonEnds⟩
  { f with
    txStart := toString r.txStart,
    txEnd := toString r.txEnd,
    exonStarts := String.intercalate (",") (r.exonStarts.map toString),
    exonEnds := String.intercalate (",") (r.exonEnds.map toString) }

/-- A header line of the annotation file starts with the hash character
(line 120 checks the first character of the raw line, which is the first
character of the first column). -/
def isHeaderLine (f : AnnotFields) : Bool :=
  match f.chrom.data with
  | [] => false
  | c :: _ => c = '#'

/-- Modelled from the spec: CampareeUtils.annot_output_format is not under
src; the spec says the output uses the same eleven-column tab-separated
textual form as the input, so a feature serializes to its columns joined
by tabs. -/
def annotLine (f : AnnotFields) : String :=
  String.intercalate ("\t")
    [f.chrom, f.strand, f.txStart, f.txEnd, f.exonCount,
     f.exonStarts, f.exonEnds, f.transcriptID, f.geneID, f.geneSymbol, f.biotype]

/-- State of the streaming loop of execute(): current chromosome, the
materialized coordinate and offset lists of that chromosome, the feature
records written to the output file and the chunks written to the log. -/
structure LoopState where
  currentChrom : String
  coords : List Int
  offsets : List Int
  output : List AnnotFields
  log : List String
deriving DecidableEq, Repr

/-- Log chunk written on every chromosome change (line 124). -/
def chromChangeMsg (c : String) : String :=
  "Processing indels and annotated features from chromosome " ++ c ++ ".\n"

/-- Log chunk written when the new chromosome has no indels (line 139). -/
def noIndelsMsg (c : String) : String :=
  "----No indels from chromosome " ++ c ++ ".\n"

/-- Lines 143-235 of execute(): skip the feature when its chromosome is
not desired, otherwise remap it when the coordinate list is non-empty
(Python truthiness of the list on line 147) and echo it unchanged
otherwise (line 235). -/
def emitPhase (desired : List String) (st : LoopState) (f : AnnotFields) : LoopState :=
  if f.chrom ∈ desired then
    if st.coords = [] then { st with output := st.output ++ [f] }
    else { st with output := st.output ++ [remapFields st.coords st.offsets f] }
  else st

/-- One iteration of the feature loop (lines 111-235). On a chromosome
change a header line is skipped, otherwise the per-chromosome state is
rebuilt: when the chromosome is present in the offset table its key and
value lists are materialized; when it is absent, lines 140-141 assign the
empty tuple to the coordinate list twice, so the offset list keeps its
stale value from the previous chromosome (a benign slip in the source,
reproduced faithfully here). -/
def annotStep (offTable : List (String × List (Int × Int))) (desired : List String)
    (st : LoopState) (f : AnnotFields) : LoopState :=
  if st.currentChrom = f.chrom then emitPhase desired st f
  else if isHeaderLine f then st
  else
    match alookup f.chrom offTable with
    | some tbl =>
      emitPhase desired
        { st with
          currentChrom := f.chrom,
          log := st.log ++ [chromChangeMsg f.chrom],
          coords := tbl.map Prod.fst,
          offsets := tbl.map Prod.snd } f
    | none =>
      emitPhase desired
        { st with
          currentChrom := f.chrom,
          log := st.log ++ [chromChangeMsg f.chrom, noIndelsMsg f.chrom],
          coords := [] } f

/-- The whole feature loop of execute(), from the initial state with the
empty current chromosome (line 109). -/
def runAnnotLoop (offTable : List (String × List (Int × Int))) (desired : List String)
    (fs : List AnnotFields) : LoopState :=
  fs.foldl (annotStep offTable desired) ⟨"", [], [], [], []⟩

/-- execute() end to end on parsed inputs: build the offset table from the
indel records, compute the desired chromosomes from the ploidy table and
stream the annotation features. -/
def executeModel (chr_ploidy : List (String × Int × Int)) (gender : String)
    (genome_copy : Int) (indels : List IndelRecord) (features : List AnnotFields) :
    LoopState :=
  runAnnotLoop (get_offsets_from_variant_file indels)
    (desired_chromosomes chr_ploidy gender genome_copy) features

/-- The coordinate list materialized for a chromosome (empty when the
chromosome is absent from the offset table). -/
def tableCoords (offTable : List (String × List (Int × Int))) (c : String) : List Int :=
  match alookup c offTable with
  | some tbl => tbl.map Prod.fst
  | none => []

/-- The offset list materialized for a chromosome. -/
def tableOffsets (offTable : List (String × List (Int × Int))) (c : String) : List Int :=
  match alookup c offTable with
  | some tbl => tbl.map Prod.snd
  | none => []

/-- The records the loop emits for one feature: nothing when the
chromosome is not desired, the echoed feature when the chromosome has no
coordinates, and the remapped feature otherwise. -/
def emitFor (offTable : List (String × List (Int × Int))) (desired : List String)
    (f : AnnotFields) : List AnnotFields :=
  if f.chrom ∈ desired then
    [if tableCoords offTable f.chrom = [] then f
     else remapFields (tableCoords offTable f.chrom) (tableOffsets offTable f.chrom) f]
  else []

/-- The emitted records of a whole feature list. -/
def emitAll (offTable : List (String × List (Int × Int))) (desired : List String) :
    List AnnotFields → List AnnotFields
  | [] => []
  | f :: rest => emitFor offTable desired f ++ emitAll offTable desired rest

/-- Consistency of the per-chromosome state of the loop: either nothing
has been processed yet, or the coordinate list matches the current
chromosome and, when it is non-empty, so does the offset list (the offset
list may be stale when the coordinate list is empty, because of the double
assignment on lines 140-141). -/
def stOK (offTable : List (String × List (Int × Int))) (st : LoopState) : Prop :=
  (st.currentChrom = "" ∧ st.coords = []) ∨
  (st.coords = tableCoords offTable st.currentChrom ∧
   (st.coords ≠ [] → st.offsets = tableOffsets offTable st.currentChrom))

/-- Concatenation of the chunks written to a stream. -/
def concatLog : List String → String
  | [] => ""
  | s :: rest => s ++ concatLog rest

/-- The full log stream of a normal run: the per-chromosome chunks
followed by the completion sentinel of line 239, written with a leading
newline and no trailing newline. -/
def executeLog (offTable : List (String × List (Int × Int))) (desired : List String)
    (fs : List AnnotFields) : String :=
  concatLog ((runAnnotLoop offTable desired fs).log) ++ "\nALL DONE!"

/-- Python text-file line iteration on the character list of the file:
each line keeps its terminating newline and a non-empty final remainder
without newline is a line of its own. -/
def pyLinesAux : List Char → List Char → List (List Char)
  | cur, [] => if cur = [] then [] else [cur.reverse]
  | cur, c :: cs =>
    if c = '\n' then (cur.reverse ++ ['\n']) :: pyLinesAux [] cs
    else pyLinesAux (c :: cur) cs

/-- The lines of a string under Python file iteration. -/
def pyLines (s : String) : List (List Char) :=
  pyLinesAux [] s.data

/-- The final element of a line list, the empty line for an empty file
(the loop variable of lines 429-432 stays the empty string then). -/
def lastLineD : List (List Char) → List Char
  | [] => []
  | [l] => l
  | _ :: l :: ls => lastLineD (l :: ls)

/-- The last line a Python read loop leaves in its loop variable. -/
def lastPyLine (s : String) : String :=
  String.mk (lastLineD (pyLines s))

/-- Python str.rstrip() on a character list: drop trailing whitespace. -/
def rstripChar (l : List Char) : List Char :=
  (l.reverse.dropWhile Char.isWhitespace).reverse

/-- Python str.rstrip(). -/
def pyRstrip (s : String) : String :=
  String.mk (rstripChar s.data)

/-- is_output_valid (lines 419-436): both output files must exist and the
last line of the log, stripped of trailing whitespace, must equal the
sentinel ALL DONE!. -/
def is_output_valid (outfile_exists logfile_exists : Bool) (logContent : String) : Bool :=
  outfile_exists && logfile_exists && (pyRstrip (lastPyLine logContent) == "ALL DONE!")

/-! Generic list helpers. -/

theorem listMapCongr {α β : Type} {l : List α} {f g : α → β}
    (h : ∀ a ∈ l, f a = g a) : l.map f = l.map g := by
  induction l with
  | nil => rfl
  | cons a t ih =>
    simp only [List.map_cons]
    exact congrArg₂ List.cons (h a (by simp)) (ih (fun b hb => h b (by simp [hb])))

theorem listMapId {α : Type} {l : List α} {f : α → α}
    (h : ∀ a ∈ l, f a = a) : l.map f = l := by
  induction l with
  | nil => rfl
  | cons a t ih =>
    simp only [List.map_cons]
    exact congrArg₂ List.cons (h a (by simp)) (ih (fun b hb => h b (by simp [hb])))

theorem takeWhilePos {α : Type} (p : α → Bool) (a : α) (l : List α) (h : p a = true) :
    List.takeWhile p (a :: l) = a :: List.takeWhile p l := by
  simp [List.takeWhile, h]

theorem takeWhileNeg {α : Type} (p : α → Bool) (a : α) (l : List α) (h : p a = false) :
    List.takeWhile p (a :: l) = [] := by
  simp [List.takeWhile, h]

/-! Properties of the predecessor search. -/

theorem bisect_right_mono (l : List Int) {x y : Int} (h : x ≤ y) :
    bisect_right l x ≤ bisect_right l y := by
  induction l with
  | nil => exact Nat.le_refl 0
  | cons a t ih =>
    by_cases hax : a ≤ x
    · have hay : a ≤ y := le_trans hax h
      unfold bisect_right at ih ⊢
      rw [takeWhilePos _ _ _ (by simpa using hax), takeWhilePos _ _ _ (by simpa using hay)]
      simp only [List.length_cons]
      exact Nat.succ_le_succ ih
    · unfold bisect_right
      rw [takeWhileNeg _ _ _ (by simpa using hax)]
      exact Nat.zero_le _

theorem bisect_right_le_length (l : List Int) (x : Int) :
    bisect_right l x ≤ l.length := by
  induction l with
  | nil => exact Nat.le_refl 0
  | cons a t ih =>
    by_cases hax : a ≤ x
    · unfold bisect_right at ih ⊢
      rw [takeWhilePos _ _ _ (by simpa using hax)]
      simp only [List.length_cons]
      exact Nat.succ_le_succ ih
    · unfold bisect_right
      rw [takeWhileNeg _ _ _ (by simpa using hax)]
      exact Nat.zero_le _

theorem effectiveOffset_zero (coords offsets : List Int) {c : Int}
    (h : bisect_right coords c = 0) : effectiveOffset coords offsets c = 0 := by
  unfold effectiveOffset
  rw [if_pos h]

theorem pyGet_eq_effectiveOffset (coords offsets : List Int) (c : Int)
    (h : 1 ≤ bisect_right coords c) :
    pyGet offsets ((bisect_right coords c : Int) - 1) = effectiveOffset coords offsets c := by
  unfold pyGet effectiveOffset
  rw [if_pos (by omega : (0 : Int) ≤ (bisect_right coords c : Int) - 1),
      if_neg (by omega : ¬ bisect_right coords c = 0)]
  congr 1
  omega

/-- Core correctness of the three-branch remapper: for a feature whose
transcript interval is well formed and whose exon coordinates lie inside
it, every branch of remapFeature applies exactly the per-coordinate
effective offset. -/
theorem remap_core (coords offsets : List Int) (ts te : Int) (es ee : List Int)
    (hte : ts ≤ te)
    (hS : ∀ c ∈ es, ts ≤ c ∧ c ≤ te) (hE : ∀ c ∈ ee, ts ≤ c ∧ c ≤ te) :
    remapFeature coords offsets ⟨ts, te, es, ee⟩
      = remapPerExon coords offsets ⟨ts, te, es, ee⟩ := by
  by_cases hbs : bisect_right coords ts = 0
  · by_cases hbe : bisect_right coords te = 0
    · simp only [remapFeature, remapPerExon]
      rw [if_pos (by omega : (bisect_right coords ts : Int) - 1 = -1),
          if_pos (by omega : (bisect_right coords te : Int) - 1 = -1)]
      simp only [CoordFeature.mk.injEq]
      refine ⟨?_, ?_, ?_, ?_⟩
      · rw [effectiveOffset_zero coords offsets hbs]; omega
      · rw [effectiveOffset_zero coords offsets hbe]; omega
      · refine (listMapId ?_).symm
        intro c hc
        have h0 : bisect_right coords c = 0 :=
          Nat.le_zero.mp (hbe ▸ bisect_right_mono coords (hS c hc).2)
        rw [effectiveOffset_zero coords offsets h0]; omega
      · refine (listMapId ?_).symm
        intro c hc
        have h0 : bisect_right coords c = 0 :=
          Nat.le_zero.mp (hbe ▸ bisect_right_mono coords (hE c hc).2)
        rw [effectiveOffset_zero coords offsets h0]; omega
    · simp only [remapFeature, remapPerExon]
      rw [if_pos (by omega : (bisect_right coords ts : Int) - 1 = -1),
          if_neg (by omega : ¬ (bisect_right coords te : Int) - 1 = -1)]
      simp only [CoordFeature.mk.injEq]
      have hguard : ∀ c : Int,
          (if 0 ≤ (bisect_right coords c : Int) - 1 then
            c + pyGet offsets ((bisect_right coords c : Int) - 1) else c)
            = c + effectiveOffset coords offsets c := by
        intro c
        by_cases h0 : bisect_right coords c = 0
        · rw [if_neg (by omega : ¬ (0 : Int) ≤ (bisect_right coords c : Int) - 1),
              effectiveOffset_zero coords offsets h0]
          omega
        · rw [if_pos (by omega : (0 : Int) ≤ (bisect_right coords c : Int) - 1),
              pyGet_eq_effectiveOffset coords offsets c (by omega)]
      refine ⟨?_, ?_, ?_, ?_⟩
      · rw [effectiveOffset_zero coords offsets hbs]; omega
      · rw [pyGet_eq_effectiveOffset coords offsets te (by omega)]
      · exact listMapCongr (fun c _ => hguard c)
      · exact listMapCongr (fun c _ => hguard c)
  · by_cases heq : bisect_right coords ts = bisect_right coords te
    · simp only [remapFeature, remapPerExon]
      rw [if_neg (by omega : ¬ (bisect_right coords ts : Int) - 1 = -1),
          if_pos (by omega :
            (bisect_right coords ts : Int) - 1 = (bisect_right coords te : Int) - 1)]
      simp only [CoordFeature.mk.injEq]
      have hone : ∀ c : Int, bisect_right coords c = bisect_right coords ts →
          pyGet offsets ((bisect_right coords ts : Int) - 1)
            = effectiveOffset coords offsets c := by
        intro c hc
        rw [← hc, pyGet_eq_effectiveOffset coords offsets c (by omega)]
      have hsq : ∀ c : Int, ts ≤ c → c ≤ te →
          bisect_right coords c = bisect_right coords ts :=
        fun c h1 h2 => Nat.le_antisymm
          (heq ▸ bisect_right_mono coords h2) (bisect_right_mono coords h1)
      refine ⟨?_, ?_, ?_, ?_⟩
      · rw [hone ts rfl]
      · rw [hone te heq.symm]
      · exact listMapCongr (fun c hc =>
          congrArg (c + ·) (hone c (hsq c (hS c hc).1 (hS c hc).2)))
      · exact listMapCongr (fun c hc =>
          congrArg (c + ·) (hone c (hsq c (hE c hc).1 (hE c hc).2)))
    · have hbe1 : 1 ≤ bisect_right coords te :=
        le_trans (by omega) (bisect_right_mono coords hte)
      simp only [remapFeature, remapPerExon]
      rw [if_neg (by omega : ¬ (bisect_right coords ts : Int) - 1 = -1),
          if_neg (by omega :
            ¬ (bisect_right coords ts : Int) - 1 = (bisect_right coords te : Int) - 1)]
      simp only [CoordFeature.mk.injEq]
      have hlow : ∀ c : Int, ts ≤ c →
          c + pyGet offsets ((bisect_right coords c : Int) - 1)
            = c + effectiveOffset coords offsets c := by
        intro c h1
        have : 1 ≤ bisect_right coords c :=
          le_trans (by omega) (bisect_right_mono coords h1)
        rw [pyGet_eq_effectiveOffset coords offsets c this]
      refine ⟨?_, ?_, ?_, ?_⟩
      · rw [pyGet_eq_effectiveOffset coords offsets ts (by omega)]
      · rw [pyGet_eq_effectiveOffset coords offsets te hbe1]
      · exact listMapCongr (fun c hc => hlow c (hS c hc).1)
      · exact listMapCongr (fun c hc => hlow c (hE c hc).1)

theorem build_single (chrom : String) (P L : Int) (kind : String) :
    get_offsets_from_variant_file [⟨chrom, P, kind, L⟩]
      = [(chrom, [(P, signedLen ⟨chrom, P, kind, L⟩)])] := by
  unfold get_offsets_from_variant_file
  simp only [List.foldl_cons, List.foldl_nil, buildStep]
  by_cases h : ("" : String) = chrom
  · simp [h, tblSet]
  · simp [h, tblSet]

theorem eff_single (P o c : Int) :
    effectiveOffset [P] [o] c = if P ≤ c then o else 0 := by
  unfold effectiveOffset bisect_right
  by_cases h : P ≤ c
  · rw [takeWhilePos _ _ _ (by simpa using h)]
    simp [h]
  · rw [takeWhileNeg _ _ _ (by simpa using h)]
    simp [h]

/-- C1 (amended): for every feature with txStart at most txEnd whose exon
coordinates all lie within the transcript interval, the remapper updates
every translated coordinate c to c + effective_offset(c), where
effective_offset is the cumulative offset at the greatest indel position
at most c (0 when none is at most c); on the example of the spec the
feature txStart 50, txEnd 250, exonStarts [50, 210], exonEnds [120, 250]
with offsets pos 100 to +5 and pos 200 to +2 maps to txStart 50, txEnd
252, exonStarts [50, 212] (the predecessor of 210 is the indel at 200,
cumulative offset +2, not the one at 100), exonEnds [125, 252]. -/
theorem coordinate_translation_c1 :
    (∀ (coords offsets : List Int) (ts te : Int) (es ee : List Int),
       ts ≤ te → (∀ c ∈ es, ts ≤ c ∧ c ≤ te) → (∀ c ∈ ee, ts ≤ c ∧ c ≤ te) →
       remapFeature coords offsets ⟨ts, te, es, ee⟩
         = remapPerExon coords offsets ⟨ts, te, es, ee⟩) ∧
    remapFeature [100, 200] [5, 2] ⟨50, 250, [50, 210], [120, 250]⟩
      = ⟨50, 252, [50, 212], [125, 252]⟩ :=
  ⟨fun coords offsets ts te es ee hte hS hE =>
      remap_core coords offsets ts te es ee hte hS hE,
   by decide⟩

/-- C1 witness: the general translation statement instantiated on the
example of the spec. -/
theorem coordinate_translation_c1_witness :
    remapFeature [100, 200] [5, 2] ⟨50, 250, [50, 210], [120, 250]⟩
      = remapPerExon [100, 200] [5, 2] ⟨50, 250, [50, 210], [120, 250]⟩ :=
  coordinate_translation_c1.1 [100, 200] [5, 2] 50 250 [50, 210] [120, 250]
    (by decide) (by decide) (by decide)

/-- C1 counterexample: on the example given in the claim the code maps the
exon starts to [50, 212], not to the claimed [50, 215]. -/
theorem coordinate_translation_c1_counterexample :
    (remapFeature [100, 200] [5, 2] ⟨50, 250, [50, 210], [120, 250]⟩).exonStarts
        = [50, 212]
      ∧ (remapFeature [100, 200] [5, 2] ⟨50, 250, [50, 210], [120, 250]⟩).exonStarts
        ≠ [50, 215] := by
  decide

/-- C2 (amended): one indel of length L at position P shifts every
coordinate at least P (not only strictly greater than P) by +L for an
insertion and by -L for a deletion, and leaves every coordinate strictly
less than P unchanged, for features whose exon coordinates lie within the
transcript interval. -/
theorem single_indel_shift_c2 (chrom : String) (P L : Int) (ts te : Int)
    (es ee : List Int) (hte : ts ≤ te)
    (hS : ∀ c ∈ es, ts ≤ c ∧ c ≤ te) (hE : ∀ c ∈ ee, ts ≤ c ∧ c ≤ te) :
    get_offsets_from_variant_file [⟨chrom, P, "I", L⟩] = [(chrom, [(P, L)])] ∧
    get_offsets_from_variant_file [⟨chrom, P, "D", L⟩] = [(chrom, [(P, -L)])] ∧
    remapFeature [P] [L] ⟨ts, te, es, ee⟩
      = ⟨ts + (if P ≤ ts then L else 0), te + (if P ≤ te then L else 0),
         es.map (fun c => c + (if P ≤ c then L else 0)),
         ee.map (fun c => c + (if P ≤ c then L else 0))⟩ ∧
    remapFeature [P] [-L] ⟨ts, te, es, ee⟩
      = ⟨ts + (if P ≤ ts then -L else 0), te + (if P ≤ te then -L else 0),
         es.map (fun c => c + (if P ≤ c then -L else 0)),
         ee.map (fun c => c + (if P ≤ c then -L else 0))⟩ := by
  have hshift : ∀ o : Int, remapFeature [P] [o] ⟨ts, te, es, ee⟩
      = ⟨ts + (if P ≤ ts then o else 0), te + (if P ≤ te then o else 0),
         es.map (fun c => c + (if P ≤ c then o else 0)),
         ee.map (fun c => c + (if P ≤ c then o else 0))⟩ := by
    intro o
    rw [remap_core [P] [o] ts te es ee hte hS hE]
    simp only [remapPerExon, CoordFeature.mk.injEq]
    refine ⟨by rw [eff_single], by rw [eff_single],
      listMapCongr (fun c _ => by rw [eff_single]),
      listMapCongr (fun c _ => by rw [eff_single])⟩
  refine ⟨?_, ?_, hshift L, hshift (-L)⟩
  · rw [build_single]
    simp [signedLen]
  · rw [build_single]
    simp [signedLen]

/-- C2 witness: the amended single-indel statement instantiated at an
insertion of 5 at position 100 and a feature spanning 50 to 150. -/
theorem single_indel_shift_c2_witness :
    get_offsets_from_variant_file [⟨"1", 100, "I", 5⟩] = [("1", [(100, 5)])] ∧
    remapFeature [100] [5] ⟨50, 150, [60], [140]⟩ = ⟨50, 155, [60], [145]⟩ := by
  have h := single_indel_shift_c2 "1" 100 5 50 150 [60] [140]
    (by decide) (by decide) (by decide)
  revert h
  decide

/-- C2 counterexample: a coordinate equal to the indel position P is
shifted by the code (the predecessor search uses a less-or-equal
comparison), so the claim that every coordinate at most P stays unchanged
is false: with one insertion of 5 at 100, the feature with every
coordinate equal to 100 maps to 105 everywhere. -/
theorem single_indel_shift_c2_counterexample :
    remapFeature [100] [5] ⟨100, 100, [100], [100]⟩ = ⟨105, 105, [105], [105]⟩ ∧
    (remapFeature [100] [5] ⟨100, 100, [100], [100]⟩).txStart ≠ 100 := by
  decide

/-- C7: when the predecessor indices of txStart and txEnd coincide and are
non-negative, the single-offset fast path of lines 193-198 is taken and it
produces exactly the same updated feature as predecessor-searching every
exon coordinate independently. -/
theorem fast_path_equivalence_c7 (coords offsets : List Int) (ts te : Int)
    (es ee : List Int) (hte : ts ≤ te)
    (hS : ∀ c ∈ es, ts ≤ c ∧ c ≤ te) (hE : ∀ c ∈ ee, ts ≤ c ∧ c ≤ te)
    (hpos : 0 ≤ (bisect_right coords ts : Int) - 1)
    (hidx : (bisect_right coords ts : Int) - 1 = (bisect_right coords te : Int) - 1) :
    remapFeature coords offsets ⟨ts, te, es, ee⟩
        = remapWholeFeature coords offsets ⟨ts, te, es, ee⟩
      ∧ remapWholeFeature coords offsets ⟨ts, te, es, ee⟩
        = remapPerExon coords offsets ⟨ts, te, es, ee⟩ := by
  have h1 : remapFeature coords offsets ⟨ts, te, es, ee⟩
      = remapWholeFeature coords offsets ⟨ts, te, es, ee⟩ := by
    simp only [remapFeature, remapWholeFeature]
    rw [if_neg (by omega : ¬ (bisect_right coords ts : Int) - 1 = -1), if_pos hidx]
  exact ⟨h1, h1.symm.trans (remap_core coords offsets ts te es ee hte hS hE)⟩

/-- C7 witness: both equivalences at a concrete feature lying strictly
between the two indels, where both predecessor indices are 0. -/
theorem fast_path_equivalence_c7_witness :
    remapFeature [100, 200] [5, 2] ⟨110, 150, [120], [130]⟩
        = remapWholeFeature [100, 200] [5, 2] ⟨110, 150, [120], [130]⟩
      ∧ remapWholeFeature [100, 200] [5, 2] ⟨110, 150, [120], [130]⟩
        = remapPerExon [100, 200] [5, 2] ⟨110, 150, [120], [130]⟩ :=
  fast_path_equivalence_c7 [100, 200] [5, 2] 110 150 [120] [130]
    (by decide) (by decide) (by decide) (by decide) (by decide)

/-- C10: in the final remapping branch every per-exon predecessor index is
non-negative and in bounds whenever the exon coordinates are at least
txStart and txStart itself has a predecessor; and for an exon coordinate
smaller than every indel position the computed index is -1, which Python
list indexing resolves to the final element, silently applying the final
cumulative offset of the chromosome (here +2 instead of 0): the feature
txStart 150, txEnd 250 with exon coordinate 50 maps that exon to 52. -/
theorem unguarded_exon_index_c10 :
    (∀ (coords offsets : List Int) (ts : Int) (es ee : List Int),
       offsets.length = coords.length →
       1 ≤ bisect_right coords ts →
       (∀ c ∈ es, ts ≤ c) → (∀ c ∈ ee, ts ≤ c) →
       (∀ c ∈ es, 1 ≤ bisect_right coords c
          ∧ bisect_right coords c - 1 < offsets.length) ∧
       (∀ c ∈ ee, 1 ≤ bisect_right coords c
          ∧ bisect_right coords c - 1 < offsets.length)) ∧
    remapFeature [100, 200] [5, 2] ⟨150, 250, [50], [50]⟩ = ⟨155, 252, [52], [52]⟩ ∧
    effectiveOffset [100, 200] [5, 2] 50 = 0 ∧
    pyGet [5, 2] (-1) = 2 ∧
    List.getLastD [5, 2] 0 = 2 := by
  refine ⟨?_, by decide, by decide, by decide, by decide⟩
  intro coords offsets ts es ee hlen hpos hS hE
  have key : ∀ c : Int, ts ≤ c →
      1 ≤ bisect_right coords c ∧ bisect_right coords c - 1 < offsets.length := by
    intro c h1
    have hb : 1 ≤ bisect_right coords c :=
      le_trans hpos (bisect_right_mono coords h1)
    have hl := bisect_right_le_length coords c
    exact ⟨hb, by omega⟩
  exact ⟨fun c hc => key c (hS c hc), fun c hc => key c (hE c hc)⟩

/-! The offset builder. -/

theorem lookupD_tblSet_self (T : List (String × List (Int × Int))) (c : String)
    (k v : Int) : lookupD c (tblSet T c k v) = odSet (lookupD c T) k v := by
  induction T with
  | nil => simp [tblSet, lookupD, alookup, odSet]
  | cons hd tl ih =>
    obtain ⟨c', l⟩ := hd
    by_cases h : c' = c
    · subst h
      simp [tblSet, lookupD, alookup]
    · simpa [tblSet, lookupD, alookup, h] using ih

theorem lookupD_tblSet_other (T : List (String × List (Int × Int))) (c c' : String)
    (k v : Int) (h : c' ≠ c) : lookupD c' (tblSet T c k v) = lookupD c' T := by
  induction T with
  | nil => simp [tblSet, lookupD, alookup, Ne.symm h]
  | cons hd tl ih =>
    obtain ⟨c'', l⟩ := hd
    by_cases h2 : c'' = c
    · subst h2
      simp [tblSet, lookupD, alookup, Ne.symm h]
    · by_cases h3 : c'' = c'
      · subst h3
        simp [tblSet, lookupD, alookup, h2]
      · simpa [tblSet, lookupD, alookup, h2, h3] using ih

theorem odSet_append (l : List (Int × Int)) (k v : Int)
    (h : ∀ p ∈ l, p.1 ≠ k) : odSet l k v = l ++ [(k, v)] := by
  induction l with
  | nil => rfl
  | cons hd tl ih =>
    obtain ⟨k', v'⟩ := hd
    have hk : k' ≠ k := h (k', v') (by simp)
    simp [odSet, hk, ih (fun p hp => h p (by simp [hp]))]

/-- Folding the records of one chromosome from a state already positioned
on that chromosome extends its offset table by the running sums started
at the incoming rolling offset and leaves every other chromosome alone. -/
theorem foldl_buildStep_run (c : String) (rs : List IndelRecord) :
    ∀ (T : List (String × List (Int × Int))) (acc : Int),
      (∀ r ∈ rs, r.chrom = c) →
      (∀ q ∈ rs.map (fun r => r.pos), q ∉ (lookupD c T).map Prod.fst) →
      (rs.map (fun r => r.pos)).Pairwise (· < ·) →
      lookupD c (rs.foldl buildStep ⟨T, acc, c⟩).table
          = lookupD c T ++ runningOffsets acc rs
        ∧ (∀ c', c' ≠ c →
            lookupD c' (rs.foldl buildStep ⟨T, acc, c⟩).table = lookupD c' T)
        ∧ (rs.foldl buildStep ⟨T, acc, c⟩).currChrom = c := by
  induction rs with
  | nil =>
    intro T acc _ _ _
    refine ⟨by simp [runningOffsets], fun c' _ => rfl, rfl⟩
  | cons r rest ih =>
    intro T acc hchrom hfresh hpair
    have hrc : r.chrom = c := hchrom r (by simp)
    have hstep : buildStep ⟨T, acc, c⟩ r
        = ⟨tblSet T c r.pos (acc + signedLen r), acc + signedLen r, c⟩ := by
      simp [buildStep, hrc]
    rw [List.foldl_cons, hstep]
    have hlk : lookupD c (tblSet T c r.pos (acc + signedLen r))
        = lookupD c T ++ [(r.pos, acc + signedLen r)] := by
      rw [lookupD_tblSet_self, odSet_append]
      intro p hp hpk
      have hmem : p.1 ∈ (lookupD c T).map Prod.fst := List.mem_map_of_mem Prod.fst hp
      rw [hpk] at hmem
      exact hfresh r.pos (by simp) hmem
    have hpair2 : (∀ a ∈ rest, r.pos < a.pos)
        ∧ (rest.map (fun r => r.pos)).Pairwise (· < ·) := by
      simpa using hpair
    have hfresh' : ∀ q ∈ rest.map (fun r => r.pos),
        q ∉ (lookupD c (tblSet T c r.pos (acc + signedLen r))).map Prod.fst := by
      intro q hq
      rw [hlk, List.map_append]
      simp only [List.mem_append, List.map_cons, List.map_nil, List.mem_singleton]
      rintro (hin | hqp)
      · exact hfresh q (by simp [hq]) hin
      · obtain ⟨r', hr', hr'q⟩ := List.mem_map.mp hq
        have hlt := hpair2.1 r' hr'
        have hq2 : r'.pos = q := hr'q
        omega
    obtain ⟨h1, h2, h3⟩ := ih (tblSet T c r.pos (acc + signedLen r))
      (acc + signedLen r) (fun r' hr' => hchrom r' (by simp [hr'])) hfresh' hpair2.2
    refine ⟨?_, ?_, h3⟩
    · rw [h1, hlk, List.append_assoc]
      rfl
    · intro c' hc'
      rw [h2 c' hc', lookupD_tblSet_other T c c' _ _ hc']

/-- Folding a grouped indel stream block by block: each block's chromosome
ends up mapped to the running sums of that block started at 0, independent
of the incoming accumulator and of every other block. -/
theorem foldl_buildStep_blocks (blocks : List (String × List IndelRecord)) :
    ∀ (T : List (String × List (Int × Int))) (acc : Int) (c₀ : String),
      (blocks.map Prod.fst).Nodup →
      (∀ b ∈ blocks, b.1 ≠ c₀) →
      (∀ b ∈ blocks, b.2 ≠ [] ∧ (∀ r ∈ b.2, r.chrom = b.1)
        ∧ (b.2.map (fun r => r.pos)).Pairwise (· < ·)) →
      (∀ b ∈ blocks, lookupD b.1 T = []) →
      (∀ b ∈ blocks,
        lookupD b.1 ((flattenBlocks blocks).foldl buildStep ⟨T, acc, c₀⟩).table
          = runningOffsets 0 b.2)
      ∧ (∀ c', c' ∉ blocks.map Prod.fst →
          lookupD c' ((flattenBlocks blocks).foldl buildStep ⟨T, acc, c₀⟩).table
            = lookupD c' T) := by
  induction blocks with
  | nil =>
    intro T acc c₀ _ _ _ _
    exact ⟨fun b hb => absurd hb (List.not_mem_nil b), fun c' _ => rfl⟩
  | cons b bs ih =>
    intro T acc c₀ hnodup hne hprops hfresh
    obtain ⟨c, rs⟩ := b
    obtain ⟨hrs_ne, hrs_chrom, hrs_pair⟩ := hprops (c, rs) (by simp)
    have hc0 : c ≠ c₀ := hne (c, rs) (by simp)
    have hnodup' : c ∉ bs.map Prod.fst ∧ (bs.map Prod.fst).Nodup := by
      rw [List.map_cons] at hnodup
      exact List.nodup_cons.mp hnodup
    have hflat : flattenBlocks ((c, rs) :: bs) = rs ++ flattenBlocks bs := rfl
    have hreset : rs.foldl buildStep ⟨T, acc, c₀⟩ = rs.foldl buildStep ⟨T, 0, c⟩ := by
      cases rs with
      | nil => exact absurd rfl hrs_ne
      | cons r rest =>
        have hrc : r.chrom = c := hrs_chrom r (by simp)
        have hbs : buildStep ⟨T, acc, c₀⟩ r = buildStep ⟨T, 0, c⟩ r := by
          simp [buildStep, hrc, Ne.symm hc0]
        rw [List.foldl_cons, List.foldl_cons, hbs]
    obtain ⟨h1, h2, h3⟩ := foldl_buildStep_run c rs T 0 hrs_chrom
      (by
        intro q hq
        rw [hfresh (c, rs) (by simp)]
        simp)
      hrs_pair
    obtain ⟨Tb, rb, cb, hst⟩ :
        ∃ Tb rb cb, rs.foldl buildStep ⟨T, 0, c⟩ = (⟨Tb, rb, cb⟩ : BuildState) :=
      ⟨_, _, _, rfl⟩
    rw [hst] at h1 h2 h3
    have hcb : cb = c := h3
    subst hcb
    have h1' : lookupD cb Tb = lookupD cb T ++ runningOffsets 0 rs := h1
    have h2' : ∀ c', c' ≠ cb → lookupD c' Tb = lookupD c' T := h2
    obtain ⟨ih1, ih2⟩ := ih Tb rb cb
      hnodup'.2
      (fun b' hb' => fun hbc => hnodup'.1 (hbc ▸ List.mem_map_of_mem Prod.fst hb'))
      (fun b' hb' => hprops b' (by simp [hb']))
      (by
        intro b' hb'
        have hb'c : b'.1 ≠ cb :=
          fun hbc => hnodup'.1 (hbc ▸ List.mem_map_of_mem Prod.fst hb')
        rw [h2' b'.1 hb'c, hfresh b' (by simp [hb'])])
    have hrun : ((flattenBlocks ((cb, rs) :: bs)).foldl buildStep ⟨T, acc, c₀⟩)
        = (flattenBlocks bs).foldl buildStep ⟨Tb, rb, cb⟩ := by
      rw [hflat, List.foldl_append, hreset, hst]
    constructor
    · intro b' hb'
      rcases List.mem_cons.mp hb' with hb'' | hb''
      · subst hb''
        rw [hrun, ih2 cb hnodup'.1, h1', hfresh (cb, rs) (by simp)]
        rfl
      · rw [hrun]
        exact ih1 b' hb''
    · intro c' hc'
      have hc'c : c' ≠ cb := by
        intro hcc
        exact hc' (by simp [hcc])
      have hc'bs : c' ∉ bs.map Prod.fst := by
        intro hmem
        exact hc' (by simp [hmem])
      rw [hrun, ih2 c' hc'bs, h2' c' hc'c]

/-- C3: run over an indel stream grouped by chromosome (each block with a
distinct non-empty chromosome name and strictly increasing positions), the
offset builder maps each chromosome to the ordered list pairing each indel
position with the running signed sum of indel lengths up to and including
that indel (negated for a deletion record D), restarted at 0 at every
chromosome change regardless of the final sum of the previous chromosome. -/
theorem offset_builder_c3 (blocks : List (String × List IndelRecord))
    (hnodup : (blocks.map Prod.fst).Nodup)
    (hne : ∀ b ∈ blocks, b.1 ≠ "")
    (hprops : ∀ b ∈ blocks, b.2 ≠ [] ∧ (∀ r ∈ b.2, r.chrom = b.1)
      ∧ (b.2.map (fun r => r.pos)).Pairwise (· < ·)) :
    ∀ b ∈ blocks,
      alookup b.1 (get_offsets_from_variant_file (flattenBlocks blocks))
        = some (runningOffsets 0 b.2) := by
  intro b hb
  have h := (foldl_buildStep_blocks blocks [] 0 "" hnodup hne hprops
    (fun b' _ => rfl)).1 b hb
  unfold get_offsets_from_variant_file
  unfold lookupD at h
  cases halk : alookup b.1 ((flattenBlocks blocks).foldl buildStep ⟨[], 0, ""⟩).table with
  | none =>
    exfalso
    rw [halk] at h
    obtain ⟨hne2, _, _⟩ := hprops b hb
    cases hbb : b.2 with
    | nil => exact hne2 hbb
    | cons r rest =>
      rw [hbb] at h
      simp [runningOffsets] at h
  | some l =>
    rw [halk] at h
    simp only [Option.getD_some] at h
    rw [h]

/-- C3 witness: the builder instantiated on two chromosome blocks; the
second chromosome gets the running sum restarted at 0 (a single deletion
of 7 yields -7) even though the first chromosome ends at +2. -/
theorem offset_builder_c3_witness :
    alookup "2" (get_offsets_from_variant_file
        (flattenBlocks [("1", [⟨"1", 100, "I", 5⟩, ⟨"1", 200, "D", 3⟩]),
                        ("2", [⟨"2", 50, "D", 7⟩])]))
      = some (runningOffsets 0 [⟨"2", 50, "D", 7⟩]) :=
  offset_builder_c3
    [("1", [⟨"1", 100, "I", 5⟩, ⟨"1", 200, "D", 3⟩]), ("2", [⟨"2", 50, "D", 7⟩])]
    (by decide) (by decide) (by decide)
    ("2", [⟨"2", 50, "D", 7⟩]) (by decide)

/-- C10 witness: the in-bounds statement instantiated on the two-indel
chromosome with exon coordinates inside the transcript. -/
theorem unguarded_exon_index_c10_witness :
    (∀ c ∈ [(160 : Int)], 1 ≤ bisect_right [100, 200] c
        ∧ bisect_right [100, 200] c - 1 < ([5, 2] : List Int).length) ∧
    (∀ c ∈ [(240 : Int)], 1 ≤ bisect_right [100, 200] c
        ∧ bisect_right [100, 200] c - 1 < ([5, 2] : List Int).length) :=
  unguarded_exon_index_c10.1 [100, 200] [5, 2] 150 [160] [240]
    (by decide) (by decide) (by decide) (by decide)

/-! The streaming annotation loop. -/

theorem emitPhase_fields (desired : List String) (st : LoopState) (f : AnnotFields) :
    (emitPhase desired st f).currentChrom = st.currentChrom
    ∧ (emitPhase desired st f).coords = st.coords
    ∧ (emitPhase desired st f).offsets = st.offsets
    ∧ (emitPhase desired st f).log = st.log := by
  unfold emitPhase
  by_cases h1 : f.chrom ∈ desired
  · by_cases h2 : st.coords = [] <;> simp [h1, h2]
  · simp [h1]

theorem emitPhase_output (offTable : List (String × List (Int × Int)))
    (desired : List String) (st : LoopState) (f : AnnotFields)
    (hco : st.coords = tableCoords offTable f.chrom)
    (hof : st.coords ≠ [] → st.offsets = tableOffsets offTable f.chrom) :
    (emitPhase desired st f).output = st.output ++ emitFor offTable desired f := by
  unfold emitPhase emitFor
  by_cases h1 : f.chrom ∈ desired
  · by_cases h2 : st.coords = []
    · have htc : tableCoords offTable f.chrom = [] := by
        rw [← hco]
        exact h2
      rw [if_pos h1, if_pos h1, if_pos h2, if_pos htc]
    · have htc : ¬ tableCoords offTable f.chrom = [] := by
        rw [← hco]
        exact h2
      rw [if_pos h1, if_pos h1, if_neg h2, if_neg htc, hco, hof h2]
  · rw [if_neg h1, if_neg h1]
    simp

theorem annotStep_main (offTable : List (String × List (Int × Int)))
    (desired : List String) (st : LoopState) (f : AnnotFields)
    (hok : stOK offTable st) (hc : f.chrom ≠ "") (hh : isHeaderLine f = false) :
    (annotStep offTable desired st f).output = st.output ++ emitFor offTable desired f
      ∧ stOK offTable (annotStep offTable desired st f) := by
  unfold annotStep
  by_cases hcur : st.currentChrom = f.chrom
  · rw [if_pos hcur]
    rcases hok with ⟨hemp, _⟩ | ⟨hco, hof⟩
    · exact absurd (hemp ▸ hcur.symm) hc
    · rw [hcur] at hco hof
      refine ⟨emitPhase_output offTable desired st f hco hof, Or.inr ?_⟩
      obtain ⟨e1, e2, e3, _⟩ := emitPhase_fields desired st f
      rw [e1, e2, e3, hcur]
      exact ⟨hco, hof⟩
  · rw [if_neg hcur, if_neg (by simp [hh])]
    cases halk : alookup f.chrom offTable with
    | some tbl =>
      have hco : tbl.map Prod.fst = tableCoords offTable f.chrom := by
        unfold tableCoords
        rw [halk]
      have hof : tbl.map Prod.snd = tableOffsets offTable f.chrom := by
        unfold tableOffsets
        rw [halk]
      refine ⟨emitPhase_output offTable desired _ f hco (fun _ => hof), Or.inr ?_⟩
      obtain ⟨e1, e2, e3, _⟩ := emitPhase_fields desired
        { st with
          currentChrom := f.chrom,
          log := st.log ++ [chromChangeMsg f.chrom],
          coords := tbl.map Prod.fst,
          offsets := tbl.map Prod.snd } f
      rw [e1, e2, e3]
      exact ⟨hco, fun _ => hof⟩
    | none =>
      have hco : ([] : List Int) = tableCoords offTable f.chrom := by
        unfold tableCoords
        rw [halk]
      refine ⟨emitPhase_output offTable desired _ f hco
        (fun hne => absurd rfl hne), Or.inr ?_⟩
      obtain ⟨e1, e2, _, _⟩ := emitPhase_fields desired
        { st with
          currentChrom := f.chrom,
          log := st.log ++ [chromChangeMsg f.chrom, noIndelsMsg f.chrom],
          coords := [] } f
      rw [e1, e2]
      exact ⟨hco, fun hne => absurd rfl hne⟩

theorem runLoop_output_aux (offTable : List (String × List (Int × Int)))
    (desired : List String) (fs : List AnnotFields) :
    ∀ st : LoopState, stOK offTable st →
      (∀ f ∈ fs, f.chrom ≠ "" ∧ isHeaderLine f = false) →
      (fs.foldl (annotStep offTable desired) st).output
        = st.output ++ emitAll offTable desired fs := by
  induction fs with
  | nil =>
    intro st _ _
    simp [emitAll]
  | cons f rest ih =>
    intro st hok hgood
    rw [List.foldl_cons]
    obtain ⟨h1, h2⟩ := annotStep_main offTable desired st f hok
      (hgood f (by simp)).1 (hgood f (by simp)).2
    rw [ih _ h2 (fun g hg => hgood g (by simp [hg])), h1]
    simp [emitAll, List.append_assoc]

/-- The output of the loop is the concatenation of the per-feature
emissions, for inputs without header lines or empty chromosome names. -/
theorem runAnnotLoop_output (offTable : List (String × List (Int × Int)))
    (desired : List String) (fs : List AnnotFields)
    (hgood : ∀ f ∈ fs, f.chrom ≠ "" ∧ isHeaderLine f = false) :
    (runAnnotLoop offTable desired fs).output = emitAll offTable desired fs := by
  unfold runAnnotLoop
  rw [runLoop_output_aux offTable desired fs ⟨"", [], [], [], []⟩ (Or.inl ⟨rfl, rfl⟩) hgood]
  rfl

theorem emitAll_identity (offTable : List (String × List (Int × Int)))
    (desired : List String) (c : String)
    (habs : alookup c offTable = none) (hel : c ∈ desired) :
    ∀ fs : List AnnotFields, (∀ f ∈ fs, f.chrom = c) →
      emitAll offTable desired fs = fs := by
  intro fs
  induction fs with
  | nil => intro _; rfl
  | cons f rest ih =>
    intro hf
    have hfc : f.chrom = c := hf f (by simp)
    have hone : emitFor offTable desired f = [f] := by
      unfold emitFor
      rw [hfc, if_pos hel]
      have htc : tableCoords offTable c = [] := by
        unfold tableCoords
        rw [habs]
      rw [htc]
      simp
    simp [emitAll, hone, ih (fun g hg => hf g (by simp [hg]))]

theorem emitAll_skip (offTable : List (String × List (Int × Int)))
    (desired : List String) (c : String) (hnd : c ∉ desired) :
    ∀ fs : List AnnotFields, (∀ f ∈ fs, f.chrom = c) →
      emitAll offTable desired fs = [] := by
  intro fs
  induction fs with
  | nil => intro _; rfl
  | cons f rest ih =>
    intro hf
    have hnone : emitFor offTable desired f = [] := by
      unfold emitFor
      rw [hf f (by simp), if_neg hnd]
    simp [emitAll, hnone, ih (fun g hg => hf g (by simp [hg]))]

/-- C4: for an eligible chromosome absent from the indel file, the loop
echoes every feature of that chromosome unchanged (the coordinate list is
empty, so line 235 writes the input line back verbatim), even though the
stale offset list of the previous chromosome may still be loaded. -/
theorem identity_no_indels_c4 (offTable : List (String × List (Int × Int)))
    (desired : List String) (fs : List AnnotFields) (c : String)
    (habs : alookup c offTable = none) (hel : c ∈ desired) (hc : c ≠ "")
    (hf : ∀ f ∈ fs, f.chrom = c ∧ isHeaderLine f = false) :
    (runAnnotLoop offTable desired fs).output = fs := by
  rw [runAnnotLoop_output offTable desired fs
    (fun f hfm => ⟨by rw [(hf f hfm).1]; exact hc, (hf f hfm).2⟩)]
  exact emitAll_identity offTable desired c habs hel fs (fun f hfm => (hf f hfm).1)

/-- C4 witness: a chromosome with no indels passes one feature through
unchanged. -/
theorem identity_no_indels_c4_witness :
    (runAnnotLoop [] ["1"]
        [⟨"1", "+", "10", "20", "1", "10", "20", "t1", "g1", "s1", "pc"⟩]).output
      = [⟨"1", "+", "10", "20", "1", "10", "20", "t1", "g1", "s1", "pc"⟩] :=
  identity_no_indels_c4 [] ["1"] _ "1" rfl (by decide) (by decide) (by decide)

/-! Ploidy filtering. -/

theorem alookup_mem {α : Type} (c : String) (v : α) :
    ∀ l : List (String × α), alookup c l = some v → (c, v) ∈ l := by
  intro l
  induction l with
  | nil => intro hlk; cases hlk
  | cons hd tl ih =>
    obtain ⟨c', v'⟩ := hd
    intro hlk
    by_cases h : c' = c
    · subst h
      unfold alookup at hlk
      rw [if_pos rfl] at hlk
      injection hlk with hv
      subst hv
      exact List.mem_cons_self _ _
    · unfold alookup at hlk
      rw [if_neg h] at hlk
      exact List.mem_cons_of_mem _ (ih hlk)

theorem alookup_unique {α : Type} (c : String) (v : α) :
    ∀ l : List (String × α), (l.map Prod.fst).Nodup → alookup c l = some v →
      ∀ e ∈ l, e.1 = c → e = (c, v) := by
  intro l
  induction l with
  | nil => intro _ hlk; cases hlk
  | cons hd tl ih =>
    obtain ⟨c', v'⟩ := hd
    intro hnodup hlk e he hec
    rw [List.map_cons] at hnodup
    have hnd := List.nodup_cons.mp hnodup
    rcases List.mem_cons.mp he with he1 | he2
    · subst he1
      have hcc : c' = c := hec
      subst hcc
      unfold alookup at hlk
      rw [if_pos rfl] at hlk
      injection hlk with hv
      rw [hv]
    · have hc'c : c' ≠ c := by
        intro hcc
        subst hcc
        have hmm : e.1 ∈ tl.map Prod.fst := List.mem_map_of_mem Prod.fst he2
        rw [hec] at hmm
        exact hnd.1 hmm
      unfold alookup at hlk
      rw [if_neg hc'c] at hlk
      exact ih hnd.2 hlk e he2 hec

theorem mem_desired_iff (chr_ploidy : List (String × Int × Int)) (g : String)
    (k : Int) (c : String) (m fl : Int)
    (hnodup : (chr_ploidy.map Prod.fst).Nodup)
    (hlk : alookup c chr_ploidy = some (m, fl)) :
    c ∈ desired_chromosomes chr_ploidy g k
      ↔ (if g = "female" then fl else m) ≥ k := by
  have hpl : ploidyAt (m, fl) (if g = "female" then 1 else 0)
      = (if g = "female" then fl else m) := by
    by_cases hg : g = "female" <;> simp [ploidyAt, hg]
  constructor
  · intro hmem
    unfold desired_chromosomes at hmem
    obtain ⟨e, he, hfst⟩ := List.mem_map.mp hmem
    obtain ⟨hemem, hep⟩ := List.mem_filter.mp he
    have heq : e = (c, m, fl) :=
      alookup_unique c (m, fl) chr_ploidy hnodup hlk e hemem hfst
    rw [heq] at hep
    have hval := of_decide_eq_true hep
    rwa [hpl] at hval
  · intro hge
    unfold desired_chromosomes
    refine List.mem_map.mpr ⟨(c, m, fl), List.mem_filter.mpr
      ⟨alookup_mem c (m, fl) chr_ploidy hlk, ?_⟩, rfl⟩
    exact decide_eq_true (by rwa [hpl])

/-- C5: a feature list on one chromosome produces output in the loop
exactly when the ploidy value of that chromosome at the gender index
(1 for female, 0 otherwise) is at least the genome copy number; a
chromosome with female ploidy 1 is excluded from a female genome-copy-2
run and included in a genome-copy-1 run, and chromosome Y with ploidy
(1, 0) is excluded for a female sample even at genome copy 1. -/
theorem ploidy_filtering_c5 :
    (∀ (chr_ploidy : List (String × Int × Int)) (g : String) (k : Int)
       (c : String) (m fl : Int)
       (offTable : List (String × List (Int × Int))) (fs : List AnnotFields),
       (chr_ploidy.map Prod.fst).Nodup →
       alookup c chr_ploidy = some (m, fl) →
       fs ≠ [] →
       (∀ f ∈ fs, f.chrom = c ∧ c ≠ "" ∧ isHeaderLine f = false) →
       ((runAnnotLoop offTable (desired_chromosomes chr_ploidy g k) fs).output ≠ []
         ↔ (if g = "female" then fl else m) ≥ k))
    ∧ (∀ (c : String) (m : Int),
        c ∉ desired_chromosomes [(c, m, 1)] "female" 2
        ∧ c ∈ desired_chromosomes [(c, m, 1)] "female" 1)
    ∧ "Y" ∉ desired_chromosomes [("Y", 1, 0)] "female" 1 := by
  refine ⟨?_, ?_, by decide⟩
  · intro chr_ploidy g k c m fl offTable fs hnodup hlk hne hf
    rw [runAnnotLoop_output offTable (desired_chromosomes chr_ploidy g k) fs
      (fun f hfm => ⟨by rw [(hf f hfm).1]; exact (hf f hfm).2.1, (hf f hfm).2.2⟩)]
    constructor
    · intro hout
      by_contra hlt
      have hnd : c ∉ desired_chromosomes chr_ploidy g k := by
        intro hmem
        exact hlt ((mem_desired_iff chr_ploidy g k c m fl hnodup hlk).mp hmem)
      exact hout (emitAll_skip offTable _ c hnd fs (fun f hfm => (hf f hfm).1))
    · intro hge
      have hmem : c ∈ desired_chromosomes chr_ploidy g k :=
        (mem_desired_iff chr_ploidy g k c m fl hnodup hlk).mpr hge
      cases fs with
      | nil => exact absurd rfl hne
      | cons f rest =>
        have hfc : f.chrom = c := (hf f (by simp)).1
        unfold emitAll emitFor
        rw [hfc, if_pos hmem]
        simp
  · intro c m
    constructor
    · simp [desired_chromosomes, ploidyAt, List.filter]
    · simp [desired_chromosomes, ploidyAt, List.filter]

/-- C5 witness: chromosome X with ploidy (2, 1) does produce output for a
female genome-copy-1 run. -/
theorem ploidy_filtering_c5_witness :
    (runAnnotLoop [] (desired_chromosomes [("X", 2, 1)] "female" 1)
        [⟨"X", "+", "10", "20", "1", "10", "20", "t1", "g1", "s1", "pc"⟩]).output ≠ []
      ↔ (1 : Int) ≥ 1 := by
  have h := ploidy_filtering_c5.1 [("X", 2, 1)] "female" 1 "X" 2 1 []
    [⟨"X", "+", "10", "20", "1", "10", "20", "t1", "g1", "s1", "pc"⟩]
    (by decide) (by decide) (by decide) (by decide)
  simpa using h

/-- C6 (amended): an annotation feature whose chromosome has no ploidy
entry is silently skipped, not an error: its chromosome can never appear
in the desired list, so the loop emits nothing for it and processing
continues normally. -/
theorem unknown_chromosome_skipped_c6 (chr_ploidy : List (String × Int × Int))
    (g : String) (k : Int) (offTable : List (String × List (Int × Int)))
    (fs : List AnnotFields) (c : String)
    (habs : c ∉ chr_ploidy.map Prod.fst)
    (hc : c ≠ "")
    (hf : ∀ f ∈ fs, f.chrom = c ∧ isHeaderLine f = false) :
    (runAnnotLoop offTable (desired_chromosomes chr_ploidy g k) fs).output = [] := by
  have hnd : c ∉ desired_chromosomes chr_ploidy g k := by
    intro hmem
    unfold desired_chromosomes at hmem
    obtain ⟨e, he, hfst⟩ := List.mem_map.mp hmem
    exact habs (hfst ▸ List.mem_map_of_mem Prod.fst (List.mem_filter.mp he).1)
  rw [runAnnotLoop_output offTable _ fs
    (fun f hfm => ⟨by rw [(hf f hfm).1]; exact hc, (hf f hfm).2⟩)]
  exact emitAll_skip offTable _ c hnd fs (fun f hfm => (hf f hfm).1)

/-- C6 witness: a feature on chromosome 2 with a ploidy table that only
knows chromosome 1 yields no output and no failure. -/
theorem unknown_chromosome_skipped_c6_witness :
    (runAnnotLoop [] (desired_chromosomes [("1", 2, 2)] "male" 1)
        [⟨"2", "+", "10", "20", "1", "10", "20", "t1", "g1", "s1", "pc"⟩]).output = [] :=
  unknown_chromosome_skipped_c6 [("1", 2, 2)] "male" 1 [] _ "2"
    (by decide) (by decide) (by decide)

/-- C6 counterexample: a run whose annotation mentions chromosome 2, which
the ploidy table does not know, does not fail: it writes the chromosome-1
feature, silently drops the chromosome-2 feature, and its log still passes
the validity check, so no UnknownChromosomeError semantics exist in the
code. -/
theorem unknown_chromosome_skipped_c6_counterexample :
    (executeModel [("1", 2, 2)] "male" 1 []
        [⟨"2", "+", "10", "20", "1", "10", "20", "t1", "g1", "s1", "pc"⟩,
         ⟨"1", "+", "10", "20", "1", "10", "20", "t2", "g2", "s2", "pc"⟩]).output
      = [⟨"1", "+", "10", "20", "1", "10", "20", "t2", "g2", "s2", "pc"⟩]
    ∧ is_output_valid true true
        (executeLog (get_offsets_from_variant_file [])
          (desired_chromosomes [("1", 2, 2)] "male" 1)
          [⟨"2", "+", "10", "20", "1", "10", "20", "t1", "g1", "s1", "pc"⟩,
           ⟨"1", "+", "10", "20", "1", "10", "20", "t2", "g2", "s2", "pc"⟩]) = true := by
  exact ⟨by decide, by decide⟩

/-- C8: the rebuilt output line preserves every non-coordinate column of
the input verbatim: chromosome, strand, exon count, transcript ID, gene
ID, gene symbol and biotype are passed through unchanged by the format
call of lines 216-230, and only the four coordinate columns are
recomputed. -/
theorem fields_preserved_c8 (coords offsets : List Int) (f : AnnotFields) :
    (remapFields coords offsets f).chrom = f.chrom
    ∧ (remapFields coords offsets f).strand = f.strand
    ∧ (remapFields coords offsets f).exonCount = f.exonCount
    ∧ (remapFields coords offsets f).transcriptID = f.transcriptID
    ∧ (remapFields coords offsets f).geneID = f.geneID
    ∧ (remapFields coords offsets f).geneSymbol = f.geneSymbol
    ∧ (remapFields coords offsets f).biotype = f.biotype :=
  ⟨rfl, rfl, rfl, rfl, rfl, rfl, rfl⟩

/-! The completion sentinel and the validity check. -/

theorem mk_data (l : List Char) : (String.mk l).data = l := rfl

theorem pyLinesAux_ne_nil : ∀ (cs cur : List Char), cur ≠ [] ∨ cs ≠ [] →
    pyLinesAux cur cs ≠ [] := by
  intro cs
  induction cs with
  | nil =>
    intro cur h
    rcases h with h | h
    · simp [pyLinesAux, h]
    · exact absurd rfl h
  | cons c cs ih =>
    intro cur _
    by_cases hc : c = '\n'
    · simp [pyLinesAux, hc]
    · simp only [pyLinesAux]
      rw [if_neg hc]
      exact ih (c :: cur) (Or.inl (by simp))

theorem lastLineD_cons (a : List Char) (l : List (List Char)) (h : l ≠ []) :
    lastLineD (a :: l) = lastLineD l := by
  cases l with
  | nil => exact absurd rfl h
  | cons b t => rfl

theorem lastLine_after_newline (xs : List Char) :
    ∀ (cur ys : List Char), ys ≠ [] →
      lastLineD (pyLinesAux cur (xs ++ '\n' :: ys))
        = lastLineD (pyLinesAux [] ys) := by
  induction xs with
  | nil =>
    intro cur ys hys
    show lastLineD ((cur.reverse ++ ['\n']) :: pyLinesAux [] ys)
      = lastLineD (pyLinesAux [] ys)
    exact lastLineD_cons _ _ (pyLinesAux_ne_nil ys [] (Or.inr hys))
  | cons x xs ih =>
    intro cur ys hys
    by_cases hx : x = '\n'
    · subst hx
      show lastLineD ((cur.reverse ++ ['\n']) :: pyLinesAux [] (xs ++ '\n' :: ys))
        = lastLineD (pyLinesAux [] ys)
      rw [lastLineD_cons _ _ (pyLinesAux_ne_nil (xs ++ '\n' :: ys) []
        (Or.inr (by simp)))]
      exact ih [] ys hys
    · show lastLineD (pyLinesAux cur (x :: (xs ++ '\n' :: ys)))
        = lastLineD (pyLinesAux [] ys)
      simp only [pyLinesAux]
      rw [if_neg hx]
      exact ih (x :: cur) ys hys

theorem lastLine_ends_dot_nl (xs : List Char) :
    ∀ cur : List Char, ∃ z,
      lastLineD (pyLinesAux cur (xs ++ ['.', '\n'])) = z ++ ['.', '\n'] := by
  induction xs with
  | nil =>
    intro cur
    refine ⟨cur.reverse, ?_⟩
    show ('.' :: cur).reverse ++ ['\n'] = cur.reverse ++ ['.', '\n']
    rw [List.reverse_cons, List.append_assoc]
    rfl
  | cons x xs ih =>
    intro cur
    by_cases hx : x = '\n'
    · subst hx
      obtain ⟨z, hz⟩ := ih []
      refine ⟨z, ?_⟩
      show lastLineD ((cur.reverse ++ ['\n']) :: pyLinesAux [] (xs ++ ['.', '\n']))
        = z ++ ['.', '\n']
      rw [lastLineD_cons _ _ (pyLinesAux_ne_nil (xs ++ ['.', '\n']) []
        (Or.inr (by simp)))]
      exact hz
    · obtain ⟨z, hz⟩ := ih (x :: cur)
      refine ⟨z, ?_⟩
      show lastLineD (pyLinesAux cur (x :: (xs ++ ['.', '\n']))) = z ++ ['.', '\n']
      simp only [pyLinesAux]
      rw [if_neg hx]
      exact hz

theorem rstrip_dot_nl (z : List Char) :
    rstripChar (z ++ ['.', '\n']) = z ++ ['.'] := by
  unfold rstripChar
  have h : (z ++ ['.', '\n']).reverse = '\n' :: '.' :: z.reverse := by
    rw [List.reverse_append]
    rfl
  have hdw : ('\n' :: '.' :: z.reverse).dropWhile Char.isWhitespace
      = '.' :: z.reverse := rfl
  rw [h, hdw, List.reverse_cons]
  simp

theorem ends_dot_ne (z : List Char) : z ++ ['.'] ≠ ("ALL DONE!").data := by
  intro h
  have h2 := congrArg List.getLast? h
  rw [List.getLast?_concat] at h2
  have h3 : ("ALL DONE!").data.getLast? = some '!' := by decide
  rw [h3] at h2
  exact absurd h2 (by decide)

theorem annotStep_log (offTable : List (String × List (Int × Int)))
    (desired : List String) (st : LoopState) (f : AnnotFields) :
    ∀ s ∈ (annotStep offTable desired st f).log,
      s ∈ st.log ∨ s = chromChangeMsg f.chrom ∨ s = noIndelsMsg f.chrom := by
  unfold annotStep
  by_cases hcur : st.currentChrom = f.chrom
  · rw [if_pos hcur]
    intro s hs
    rw [(emitPhase_fields desired st f).2.2.2] at hs
    exact Or.inl hs
  · rw [if_neg hcur]
    by_cases hhd : isHeaderLine f = true
    · rw [if_pos hhd]
      exact fun s hs => Or.inl hs
    · rw [if_neg hhd]
      cases halk : alookup f.chrom offTable with
      | some tbl =>
        intro s hs
        rw [(emitPhase_fields desired _ f).2.2.2] at hs
        rcases List.mem_append.mp hs with h | h
        · exact Or.inl h
        · exact Or.inr (Or.inl (List.mem_singleton.mp h))
      | none =>
        intro s hs
        rw [(emitPhase_fields desired _ f).2.2.2] at hs
        rcases List.mem_append.mp hs with h | h
        · exact Or.inl h
        · rcases List.mem_cons.mp h with h2 | h2
          · exact Or.inr (Or.inl h2)
          · exact Or.inr (Or.inr (List.mem_singleton.mp h2))

theorem chromChangeMsg_ends (c : String) :
    ∃ z, (chromChangeMsg c).data = z ++ ['.', '\n'] :=
  ⟨("Processing indels and annotated features from chromosome " ++ c).data, rfl⟩

theorem noIndelsMsg_ends (c : String) :
    ∃ z, (noIndelsMsg c).data = z ++ ['.', '\n'] :=
  ⟨("----No indels from chromosome " ++ c).data, rfl⟩

theorem log_chunk_ends (offTable : List (String × List (Int × Int)))
    (desired : List String) (fs : List AnnotFields) :
    ∀ st : LoopState,
      (∀ s ∈ st.log, ∃ z, s.data = z ++ ['.', '\n']) →
      ∀ s ∈ (fs.foldl (annotStep offTable desired) st).log,
        ∃ z, s.data = z ++ ['.', '\n'] := by
  induction fs with
  | nil => intro st h; exact h
  | cons f rest ih =>
    intro st h
    rw [List.foldl_cons]
    apply ih
    intro s hs
    rcases annotStep_log offTable desired st f s hs with h1 | h1 | h1
    · exact h s h1
    · rw [h1]
      exact chromChangeMsg_ends f.chrom
    · rw [h1]
      exact noIndelsMsg_ends f.chrom

theorem concatLog_ends (l : List String)
    (h : ∀ s ∈ l, ∃ z, s.data = z ++ ['.', '\n']) :
    l = [] ∨ ∃ w, (concatLog l).data = w ++ ['.', '\n'] := by
  induction l with
  | nil => exact Or.inl rfl
  | cons s rest ih =>
    right
    rcases ih (fun t ht => h t (by simp [ht])) with hnil | ⟨w, hw⟩
    · subst hnil
      obtain ⟨z, hz⟩ := h s (by simp)
      refine ⟨z, ?_⟩
      show s.data ++ (concatLog []).data = z ++ ['.', '\n']
      rw [hz]
      simp [concatLog]
    · obtain ⟨z, hz⟩ := h s (by simp)
      refine ⟨s.data ++ w, ?_⟩
      show s.data ++ (concatLog rest).data = (s.data ++ w) ++ ['.', '\n']
      rw [hw, List.append_assoc]

/-- C9: (1) the full log of a run ends with the sentinel write of line
239, so its last Python-iterated line is exactly ALL DONE! and the
validity check accepts it when both files exist; (2) is_output_valid is
true exactly when both files exist and the stripped last log line equals
ALL DONE!; (3) a run that stops after any prefix of the feature loop has
written only per-chromosome chunks, each ending in a period and newline,
so its log never passes the validity check, regardless of partial
output. -/
theorem completion_sentinel_c9 :
    (∀ (offTable : List (String × List (Int × Int))) (desired : List String)
       (fs : List AnnotFields),
       lastPyLine (executeLog offTable desired fs) = "ALL DONE!"
       ∧ is_output_valid true true (executeLog offTable desired fs) = true)
    ∧ (∀ (oe le : Bool) (s : String),
        is_output_valid oe le s = true
          ↔ (oe = true ∧ le = true ∧ pyRstrip (lastPyLine s) = "ALL DONE!"))
    ∧ (∀ (oe le : Bool) (offTable : List (String × List (Int × Int)))
        (desired : List String) (fs : List AnnotFields),
        is_output_valid oe le
          (concatLog ((runAnnotLoop offTable desired fs).log)) = false) := by
  have hlast : ∀ x : String, lastPyLine (x ++ "\nALL DONE!") = "ALL DONE!" := by
    intro x
    unfold lastPyLine pyLines
    have hd : (x ++ "\nALL DONE!").data = x.data ++ '\n' :: ("ALL DONE!").data := rfl
    rw [hd, lastLine_after_newline x.data [] _ (by decide)]
    decide
  refine ⟨?_, ?_, ?_⟩
  · intro offTable desired fs
    have h1 : lastPyLine (executeLog offTable desired fs) = "ALL DONE!" :=
      hlast (concatLog ((runAnnotLoop offTable desired fs).log))
    refine ⟨h1, ?_⟩
    unfold is_output_valid
    unfold executeLog at h1 ⊢
    rw [h1]
    decide
  · intro oe le s
    unfold is_output_valid
    simp [Bool.and_eq_true, beq_iff_eq, and_assoc]
  · intro oe le offTable desired fs
    have hch : ∀ s ∈ (runAnnotLoop offTable desired fs).log,
        ∃ z, s.data = z ++ ['.', '\n'] := by
      unfold runAnnotLoop
      exact log_chunk_ends offTable desired fs ⟨"", [], [], [], []⟩
        (fun s hs => absurd hs (List.not_mem_nil s))
    rcases concatLog_ends _ hch with hnil | ⟨w, hw⟩
    · rw [hnil]
      unfold is_output_valid
      have hb : (pyRstrip (lastPyLine (concatLog [])) == "ALL DONE!") = false := by
        decide
      rw [hb]
      simp
    · obtain ⟨z, hz⟩ := lastLine_ends_dot_nl w []
      unfold is_output_valid pyRstrip lastPyLine pyLines
      rw [hw, hz, mk_data, rstrip_dot_nl]
      have hb : (String.mk (z ++ ['.']) == "ALL DONE!") = false := by
        rw [beq_eq_false_iff_ne]
        intro hEq
        exact ends_dot_ne z (congrArg String.data hEq)
      rw [hb]
      simp

end CampareeAnnot
